import Mathlib

/-!
Verification of the compensation-calculation engine in `src/formulas.py`
(Streamlit calculator for the Vuotto, Méndez, Acciarri, Marshall and Local
formulas, with RIPTE wage-index adjustment).

Shallow embedding conventions:
* Python floats are modelled by `ℚ` (the spec treats them as exact reals);
* a Python expression that can raise `ZeroDivisionError` or `IndexError`
  is modelled as an `Option`-valued function (`none` = the exception);
* a `pd.Period` with monthly frequency is modelled by its month ordinal,
  an integer `12 * year + month` (pandas stores monthly periods as such an
  ordinal; for calendar months `1..12` the encoding is order-faithful);
* the RIPTE dataframe is modelled as a `List (ℤ × ℚ)` of
  (period ordinal, index value) rows in dataframe row order.
-/

/-- Guarded division: `pdiv a b` models the Python expression `a / b`,
which raises `ZeroDivisionError` when `b = 0`. -/
def pdiv (a b : ℚ) : Option ℚ :=
  if b = 0 then none else some (a / b)

/-- `coeficiente_actuarial(i, n)` from `src/formulas.py` lines 88-91,
with both divisions modelled as fallible (`pdiv`):
`if n <= 0: return 0; return (1 - (1 / ((1 + i) ** n))) / i`. -/
def coeficiente_actuarial? (i : ℚ) (n : ℤ) : Option ℚ :=
  if n ≤ 0 then some 0
  else (pdiv 1 ((1 + i) ^ n.toNat)).bind fun inv => pdiv (1 - inv) i

/-- Total-value version of `coeficiente_actuarial` (the value the Python
code computes whenever no `ZeroDivisionError` is raised). -/
def coeficiente_actuarial (i : ℚ) (n : ℤ) : ℚ :=
  if n ≤ 0 then 0 else (1 - 1 / (1 + i) ^ n.toNat) / i

/-- `formula_vuotto` from `src/formulas.py` line 93-94. -/
def formula_vuotto (salario_anual i : ℚ) (n : ℤ) (incapacidad : ℚ) : ℚ :=
  salario_anual * coeficiente_actuarial i n * incapacidad

/-- `formula_mendez` from `src/formulas.py` lines 96-97 (the division
`60 / edad` is total here; `edad = 0` raises in Python and is excluded by
hypothesis wherever it matters). -/
def formula_mendez (salario_anual i : ℚ) (n : ℤ) (incapacidad edad : ℚ) : ℚ :=
  salario_anual * (60 / edad) * coeficiente_actuarial i n * incapacidad

/-- `formula_acciarri` from `src/formulas.py` lines 99-101:
Méndez shape times the extra coefficient `1.1`. -/
def formula_acciarri (salario_anual i : ℚ) (n : ℤ) (incapacidad edad : ℚ) : ℚ :=
  salario_anual * (60 / edad) * coeficiente_actuarial i n * incapacidad * 1.1

/-- `formula_marshall` from `src/formulas.py` lines 103-104. -/
def formula_marshall (salario_anual i : ℚ) (n : ℤ) (incapacidad : ℚ) : ℚ :=
  salario_anual * coeficiente_actuarial i n * incapacidad

/-- `formula_local` from `src/formulas.py` lines 108-111. -/
def formula_local (valor_punto puntos_fisicos puntos_psico dano_moral_pct tasa_interes : ℚ)
    (anos : ℕ) : ℚ :=
  (valor_punto * puntos_fisicos + valor_punto * puntos_psico * 0.5 +
      valor_punto * puntos_fisicos * dano_moral_pct) * (1 + tasa_interes) ^ anos

lemma pdiv_eq_some {a b : ℚ} (hb : b ≠ 0) : pdiv a b = some (a / b) := by
  simp [pdiv, hb]

lemma one_add_pos {i : ℚ} (hi : 0 ≤ i) : (0 : ℚ) < 1 + i := by linarith

lemma one_lt_one_add {i : ℚ} (hi : 0 < i) : (1 : ℚ) < 1 + i := by linarith

lemma coeficiente_actuarial?_eq_some {i : ℚ} (hi : 0 < i) (n : ℤ) :
    coeficiente_actuarial? i n = some (coeficiente_actuarial i n) := by
  unfold coeficiente_actuarial? coeficiente_actuarial
  by_cases hn : n ≤ 0
  · simp [hn]
  · have hpow : ((1 : ℚ) + i) ^ n.toNat ≠ 0 :=
      pow_ne_zero _ (ne_of_gt (one_add_pos hi.le))
    rw [if_neg hn, if_neg hn, pdiv_eq_some hpow, Option.some_bind,
      pdiv_eq_some (ne_of_gt hi)]

/-- C1: `coeficiente_actuarial` returns `0` whenever `n ≤ 0`, and for
`n > 0` with `i > 0` returns exactly `(1 - (1 + i) ^ (-n)) / i`. -/
theorem claim_C1_annuity_coefficient (i : ℚ) (n : ℤ) (_hi : 0 ≤ i) :
    (n ≤ 0 → coeficiente_actuarial? i n = some 0) ∧
    (0 < n → 0 < i →
      coeficiente_actuarial? i n = some ((1 - (1 + i) ^ (-n)) / i)) := by
  constructor
  · intro hn
    simp [coeficiente_actuarial?, hn]
  · intro hn hipos
    rw [coeficiente_actuarial?_eq_some hipos]
    unfold coeficiente_actuarial
    rw [if_neg (not_le.mpr hn)]
    have hn' : ((n.toNat : ℤ)) = n := Int.toNat_of_nonneg hn.le
    have hz : ((1 : ℚ) + i) ^ (-n) = ((1 : ℚ) + i) ^ (-(n.toNat : ℤ)) := by rw [hn']
    rw [hz, zpow_neg, zpow_natCast, one_div]

theorem claim_C1_annuity_coefficient_witness :
    coeficiente_actuarial? 0.06 (-2) = some 0 ∧
      coeficiente_actuarial? 0.06 2 = some ((1 - (1 + 0.06) ^ (-2 : ℤ)) / 0.06) := by
  refine ⟨(claim_C1_annuity_coefficient 0.06 (-2) (by norm_num)).1 (by norm_num),
    (claim_C1_annuity_coefficient 0.06 2 (by norm_num)).2 (by norm_num) (by norm_num)⟩

/-- C6: for a rate `i ≥ 0`, `coeficiente_actuarial` raises
(`ZeroDivisionError`, i.e. `none`) exactly when `i = 0` and `n > 0`,
and for `n ≤ 0` it returns `0` even when `i = 0`. -/
theorem claim_C6_annuity_failure (i : ℚ) (n : ℤ) (hi : 0 ≤ i) :
    (coeficiente_actuarial? i n = none ↔ i = 0 ∧ 0 < n) ∧
    (n ≤ 0 → coeficiente_actuarial? i n = some 0) := by
  have hbase : ((1 : ℚ) + i) ^ n.toNat ≠ 0 :=
    pow_ne_zero _ (ne_of_gt (one_add_pos hi))
  constructor
  · by_cases hn : n ≤ 0
    · constructor
      · intro h
        simp [coeficiente_actuarial?, hn] at h
      · rintro ⟨-, hn2⟩
        omega
    · unfold coeficiente_actuarial?
      rw [if_neg hn, pdiv_eq_some hbase, Option.some_bind]
      unfold pdiv
      constructor
      · intro h
        by_cases hi0 : i = 0
        · exact ⟨hi0, lt_of_not_le hn⟩
        · simp [hi0] at h
      · rintro ⟨hi0, -⟩
        simp [hi0]
  · intro hn
    simp [coeficiente_actuarial?, hn]

theorem claim_C6_annuity_failure_witness :
    (coeficiente_actuarial? 0 3 = none ↔ (0 : ℚ) = 0 ∧ (0 : ℤ) < 3) ∧
      coeficiente_actuarial? 0 (-1) = some 0 := by
  exact ⟨(claim_C6_annuity_failure 0 3 (by norm_num)).1,
    (claim_C6_annuity_failure 0 (-1) (by norm_num)).2 (by norm_num)⟩

/-- C8: for `edad ≠ 0`, the Acciarri formula equals exactly `1.1` times the
Méndez formula on the same inputs. -/
theorem claim_C8_acciarri_is_mendez_times_eleven_tenths
    (salario_anual i : ℚ) (n : ℤ) (incapacidad edad : ℚ) (_h : edad ≠ 0) :
    formula_acciarri salario_anual i n incapacidad edad =
      1.1 * formula_mendez salario_anual i n incapacidad edad := by
  unfold formula_acciarri formula_mendez
  ring

theorem claim_C8_acciarri_witness :
    formula_acciarri 100 0.04 5 0.5 30 = 1.1 * formula_mendez 100 0.04 5 0.5 30 :=
  claim_C8_acciarri_is_mendez_times_eleven_tenths 100 0.04 5 0.5 30 (by norm_num)

/-- A calendar date, as the triple of fields the Python code reads from a
`datetime.date` (`.year`, `.month`, `.day`). -/
structure Fecha where
  year : ℤ
  month : ℤ
  day : ℤ

/-- `anos_transcurridos` from `src/formulas.py` line 174:
`(hoy.year - fecha_hecho.year) - (((hoy.month, hoy.day) < (fecha_hecho.month, fecha_hecho.day)))`.
Python compares the tuples lexicographically and coerces the Boolean to
`0` or `1` when subtracting. -/
def anos_transcurridos (fecha_hecho hoy : Fecha) : ℤ :=
  (hoy.year - fecha_hecho.year) -
    (if hoy.month < fecha_hecho.month ∨
        (hoy.month = fecha_hecho.month ∧ hoy.day < fecha_hecho.day)
     then 1 else 0)

/-- C2: elapsed years equal the whole-year difference between the incident
date and the evaluation date, decremented by one exactly when the
`(month, day)` pair of the evaluation date lexicographically precedes the
`(month, day)` pair of the incident date. -/
theorem claim_C2_elapsed_years (fecha_hecho hoy : Fecha) :
    anos_transcurridos fecha_hecho hoy =
      (hoy.year - fecha_hecho.year) -
        (if toLex (hoy.month, hoy.day) < toLex (fecha_hecho.month, fecha_hecho.day)
         then 1 else 0) := by
  unfold anos_transcurridos
  simp only [Prod.Lex.lt_iff]

/-- `SMVM` from `src/formulas.py` line 19 (statutory minimum monthly wage). -/
def SMVM : ℚ := 322000

/-- Lines 158-159 of `src/formulas.py`:
`if salario_mensual <= 0: salario_mensual = SMVM`. -/
def resolver_salario_mensual (salario_mensual : ℚ) : ℚ :=
  if salario_mensual ≤ 0 then SMVM else salario_mensual

/-- Line 161 of `src/formulas.py`: `salario_anual = salario_mensual * 13`,
applied to the resolved monthly salary. -/
def salario_anual (salario_mensual : ℚ) : ℚ :=
  resolver_salario_mensual salario_mensual * 13

/-- C9: the engine substitutes the statutory minimum wage whenever the
resulting monthly salary is `≤ 0` (and keeps a positive salary unchanged),
and the annual salary fed to the formulas is the resolved monthly salary
times 13. -/
theorem claim_C9_salary_resolution (s : ℚ) :
    (s ≤ 0 → resolver_salario_mensual s = SMVM) ∧
    (0 < s → resolver_salario_mensual s = s) ∧
    salario_anual s = resolver_salario_mensual s * 13 := by
  refine ⟨fun h => ?_, fun h => ?_, rfl⟩
  · simp [resolver_salario_mensual, h]
  · simp [resolver_salario_mensual, not_le.mpr h]

theorem claim_C9_salary_resolution_witness :
    resolver_salario_mensual 0 = SMVM ∧ resolver_salario_mensual 50000 = 50000 ∧
      salario_anual 0 = resolver_salario_mensual 0 * 13 :=
  ⟨(claim_C9_salary_resolution 0).1 (by norm_num),
    (claim_C9_salary_resolution 50000).2.1 (by norm_num),
    (claim_C9_salary_resolution 0).2.2⟩

lemma coef_sum_aux (i : ℚ) (hi : 0 < i) (N : ℕ) :
    (1 - 1 / (1 + i) ^ N) / i = ∑ k ∈ Finset.range N, 1 / (1 + i) ^ (k + 1) := by
  induction N with
  | zero => simp
  | succ N ih =>
    rw [Finset.sum_range_succ, ← ih]
    have h1 : ((1 : ℚ) + i) ≠ 0 := ne_of_gt (one_add_pos hi.le)
    have h2 : ((1 : ℚ) + i) ^ N ≠ 0 := pow_ne_zero _ h1
    have h3 : ((1 : ℚ) + i) ^ (N + 1) ≠ 0 := pow_ne_zero _ h1
    field_simp
    ring

/-- The annuity coefficient is the partial sum of the geometric series of
discount factors `(1 + i) ^ -(k + 1)`. -/
lemma coeficiente_actuarial_eq_sum (i : ℚ) (hi : 0 < i) (n : ℤ) :
    coeficiente_actuarial i n = ∑ k ∈ Finset.range n.toNat, 1 / (1 + i) ^ (k + 1) := by
  unfold coeficiente_actuarial
  by_cases hn : n ≤ 0
  · rw [if_pos hn, Int.toNat_of_nonpos hn]
    simp
  · rw [if_neg hn, coef_sum_aux i hi]

lemma coef_term_pos (i : ℚ) (hi : 0 < i) (k : ℕ) : 0 < 1 / (1 + i) ^ (k + 1) := by
  have h := one_add_pos hi.le
  positivity

lemma coef_strictMono_n (i : ℚ) (hi : 0 < i) {m n : ℤ} (hm : 0 ≤ m) (hmn : m < n) :
    coeficiente_actuarial i m < coeficiente_actuarial i n := by
  rw [coeficiente_actuarial_eq_sum i hi, coeficiente_actuarial_eq_sum i hi]
  have htn : m.toNat < n.toNat := by omega
  refine Finset.sum_lt_sum_of_subset
    (Finset.range_subset.mpr htn.le) (Finset.mem_range.mpr htn)
    (by simp) (coef_term_pos i hi _) ?_
  intro k _ _
  exact (coef_term_pos i hi k).le

lemma coef_strictAnti_i (i j : ℚ) (hi : 0 < i) (hij : i < j) {n : ℤ} (hn : 0 < n) :
    coeficiente_actuarial j n < coeficiente_actuarial i n := by
  have hj : (0 : ℚ) < j := hi.trans hij
  rw [coeficiente_actuarial_eq_sum i hi, coeficiente_actuarial_eq_sum j hj]
  refine Finset.sum_lt_sum_of_nonempty (Finset.nonempty_range_iff.mpr (by omega)) ?_
  intro k _
  have hb : ((1 : ℚ) + i) ^ (k + 1) < (1 + j) ^ (k + 1) :=
    pow_lt_pow_left₀ (by linarith) (one_add_pos hi.le).le (Nat.succ_ne_zero k)
  exact div_lt_div_of_pos_left one_pos (pow_pos (one_add_pos hi.le) _) hb

/-- C7 counterexample: strict monotonicity in `n` fails when both
arguments are `≤ 0` (the `n ≤ 0` guard pins the value at `0`), and strict
antitonicity in `i` fails for fixed `n ≤ 0` for the same reason. -/
theorem claim_C7_counterexample :
    (0 : ℚ) < 1 ∧ (-1 : ℤ) < 0 ∧
      coeficiente_actuarial 1 (-1) = coeficiente_actuarial 1 0 ∧
      (1 : ℚ) < 2 ∧ coeficiente_actuarial 1 0 = coeficiente_actuarial 2 0 := by
  refine ⟨by norm_num, by norm_num, ?_, by norm_num, ?_⟩ <;>
    simp [coeficiente_actuarial]

/-- C7 (amended): for `i > 0`, `coeficiente_actuarial i` is strictly
increasing in `n` on `n ≥ 0`, and for fixed `n > 0` it is strictly
decreasing in `i` on `i > 0`. -/
theorem claim_C7_amended_monotonicity (i j : ℚ) (m n : ℤ) :
    (0 < i → 0 ≤ m → m < n →
      coeficiente_actuarial i m < coeficiente_actuarial i n) ∧
    (0 < i → i < j → 0 < n →
      coeficiente_actuarial j n < coeficiente_actuarial i n) :=
  ⟨fun hi hm hmn => coef_strictMono_n i hi hm hmn,
   fun hi hij hn => coef_strictAnti_i i j hi hij hn⟩

theorem claim_C7_monotonicity_witness :
    coeficiente_actuarial 0.06 0 < coeficiente_actuarial 0.06 1 ∧
      coeficiente_actuarial 0.08 1 < coeficiente_actuarial 0.06 1 :=
  ⟨(claim_C7_amended_monotonicity 0.06 0.08 0 1).1 (by norm_num) (by norm_num)
      (by norm_num),
   (claim_C7_amended_monotonicity 0.06 0.08 0 1).2 (by norm_num) (by norm_num)
      (by norm_num)⟩

/-- `pd.Period(f"{year}-{month:02d}")` from `src/formulas.py` lines 53-54:
the month ordinal of a date, its day truncated away. -/
def toPeriod (d : Fecha) : ℤ := 12 * d.year + d.month

/-- `.max()` over a pandas series of periods, modelled on the list of
periods (`none` on an empty series, where pandas yields `NaN`). -/
def seriesMax : List ℤ → Option ℤ
  | [] => none
  | x :: l =>
    match seriesMax l with
    | none => some x
    | some m => some (max x m)

/-- `.min()` over a pandas series of periods. -/
def seriesMin : List ℤ → Option ℤ
  | [] => none
  | x :: l =>
    match seriesMin l with
    | none => some x
    | some m => some (min x m)

/-- The per-period adjustment step of `seleccionar_periodos`
(`src/formulas.py` lines 59-64): keep an exact hit, otherwise take the
greatest period `≤ p`, otherwise the role-specific fallback. -/
def nearest_atras (fechas : List ℤ) (p fallback : ℤ) : ℤ :=
  if p ∈ fechas then p
  else
    match seriesMax (fechas.filter fun q => decide (q ≤ p)) with
    | some m => m
    | none => fallback

/-- `seleccionar_periodos` from `src/formulas.py` lines 49-67, on the
`fecha` column of the loaded dataframe: truncate to months, swap if out of
order, adjust backwards with asymmetric fallbacks, clamp the end to the
last published period. -/
def seleccionar_periodos (fechas : List ℤ) (fecha_inicial fecha_final : Fecha) :
    Option (ℤ × ℤ) :=
  if fechas = [] then none
  else
    let pi0 := toPeriod fecha_inicial
    let pf0 := toPeriod fecha_final
    let pi1 := if pf0 < pi0 then pf0 else pi0
    let pf1 := if pf0 < pi0 then pi0 else pf0
    let pi2 := nearest_atras fechas pi1 ((seriesMin fechas).getD 0)
    let pf2 := nearest_atras fechas pf1 ((seriesMax fechas).getD 0)
    some (pi2, min pf2 ((seriesMax fechas).getD 0))

lemma seriesMax_eq_none_iff (l : List ℤ) : seriesMax l = none ↔ l = [] := by
  cases l with
  | nil => simp [seriesMax]
  | cons x l => cases h : seriesMax l <;> simp [seriesMax, h]

lemma seriesMin_eq_none_iff (l : List ℤ) : seriesMin l = none ↔ l = [] := by
  cases l with
  | nil => simp [seriesMin]
  | cons x l => cases h : seriesMin l <;> simp [seriesMin, h]

lemma seriesMax_mem {l : List ℤ} {m : ℤ} (h : seriesMax l = some m) : m ∈ l := by
  induction l generalizing m with
  | nil => simp [seriesMax] at h
  | cons x l ih =>
    cases hl : seriesMax l with
    | none =>
      rw [seriesMax, hl] at h
      simp only [Option.some.injEq] at h
      simp [← h]
    | some m' =>
      rw [seriesMax, hl] at h
      simp only [Option.some.injEq] at h
      rcases max_choice x m' with hm | hm <;> rw [← h, hm]
      · simp
      · simp [ih hl]

lemma seriesMin_mem {l : List ℤ} {m : ℤ} (h : seriesMin l = some m) : m ∈ l := by
  induction l generalizing m with
  | nil => simp [seriesMin] at h
  | cons x l ih =>
    cases hl : seriesMin l with
    | none =>
      rw [seriesMin, hl] at h
      simp only [Option.some.injEq] at h
      simp [← h]
    | some m' =>
      rw [seriesMin, hl] at h
      simp only [Option.some.injEq] at h
      rcases min_choice x m' with hm | hm <;> rw [← h, hm]
      · simp
      · simp [ih hl]

lemma le_seriesMax {l : List ℤ} {m : ℤ} (h : seriesMax l = some m) :
    ∀ x ∈ l, x ≤ m := by
  induction l generalizing m with
  | nil => simp
  | cons y l ih =>
    intro x hx
    cases hl : seriesMax l with
    | none =>
      have hnil : l = [] := (seriesMax_eq_none_iff l).mp hl
      rw [seriesMax, hl] at h
      simp only [Option.some.injEq] at h
      subst hnil
      simp at hx
      omega
    | some m' =>
      rw [seriesMax, hl] at h
      simp only [Option.some.injEq] at h
      rcases List.mem_cons.mp hx with hxy | hxl
      · subst hxy
        omega
      · have := ih hl x hxl
        omega

lemma seriesMin_le {l : List ℤ} {m : ℤ} (h : seriesMin l = some m) :
    ∀ x ∈ l, m ≤ x := by
  induction l generalizing m with
  | nil => simp
  | cons y l ih =>
    intro x hx
    cases hl : seriesMin l with
    | none =>
      have hnil : l = [] := (seriesMin_eq_none_iff l).mp hl
      rw [seriesMin, hl] at h
      simp only [Option.some.injEq] at h
      subst hnil
      simp at hx
      omega
    | some m' =>
      rw [seriesMin, hl] at h
      simp only [Option.some.injEq] at h
      rcases List.mem_cons.mp hx with hxy | hxl
      · subst hxy
        omega
      · have := ih hl x hxl
        omega

lemma seriesMax_isSome {l : List ℤ} (h : l ≠ []) : ∃ m, seriesMax l = some m := by
  cases hm : seriesMax l with
  | none => exact absurd ((seriesMax_eq_none_iff l).mp hm) h
  | some m => exact ⟨m, rfl⟩

lemma seriesMin_isSome {l : List ℤ} (h : l ≠ []) : ∃ m, seriesMin l = some m := by
  cases hm : seriesMin l with
  | none => exact absurd ((seriesMin_eq_none_iff l).mp hm) h
  | some m => exact ⟨m, rfl⟩

lemma sel_if_min (a b : ℤ) : (if b < a then b else a) = min a b := by
  by_cases hab : b < a <;> simp [hab] <;> omega

lemma sel_if_max (a b : ℤ) : (if b < a then a else b) = max a b := by
  by_cases hab : b < a <;> simp [hab] <;> omega

lemma seleccionar_periodos_eq (fechas : List ℤ) (h : fechas ≠ []) (fi ff : Fecha) :
    seleccionar_periodos fechas fi ff =
      some (nearest_atras fechas (min (toPeriod fi) (toPeriod ff))
              ((seriesMin fechas).getD 0),
            min (nearest_atras fechas (max (toPeriod fi) (toPeriod ff))
                  ((seriesMax fechas).getD 0))
              ((seriesMax fechas).getD 0)) := by
  simp only [seleccionar_periodos, if_neg h, sel_if_min, sel_if_max]

/-- C3: on a non-empty table, `seleccionar_periodos` truncates both dates
to months, swaps out-of-order pairs, keeps exact hits, resolves an absent
period to the greatest table period below it, falls back to the table
minimum (start role) or maximum (end role) when nothing lies below, and
clamps the end period to the table maximum. -/
theorem claim_C3_period_selection (fechas : List ℤ) (h : fechas ≠ []) (fi ff : Fecha) :
    seleccionar_periodos fechas fi ff =
      some (nearest_atras fechas (min (toPeriod fi) (toPeriod ff))
              ((seriesMin fechas).getD 0),
            min (nearest_atras fechas (max (toPeriod fi) (toPeriod ff))
                  ((seriesMax fechas).getD 0))
              ((seriesMax fechas).getD 0)) ∧
    seleccionar_periodos fechas ff fi = seleccionar_periodos fechas fi ff ∧
    (∀ d d₂ : ℤ, seleccionar_periodos fechas ⟨fi.year, fi.month, d⟩ ⟨ff.year, ff.month, d₂⟩ =
      seleccionar_periodos fechas fi ff) ∧
    (∀ p fb : ℤ, p ∈ fechas → nearest_atras fechas p fb = p) ∧
    (∀ p fb : ℤ, (∃ q ∈ fechas, q ≤ p) →
      nearest_atras fechas p fb ∈ fechas ∧ nearest_atras fechas p fb ≤ p ∧
      ∀ q ∈ fechas, q ≤ p → q ≤ nearest_atras fechas p fb) ∧
    (∀ p fb : ℤ, (∀ q ∈ fechas, ¬ q ≤ p) → nearest_atras fechas p fb = fb) ∧
    (∃ mn mx : ℤ, seriesMin fechas = some mn ∧ seriesMax fechas = some mx ∧
      mn ∈ fechas ∧ mx ∈ fechas ∧ ∀ q ∈ fechas, mn ≤ q ∧ q ≤ mx) ∧
    (∀ pi pf : ℤ, seleccionar_periodos fechas fi ff = some (pi, pf) →
      pf ≤ (seriesMax fechas).getD 0) := by
  obtain ⟨mn, hmn⟩ := seriesMin_isSome h
  obtain ⟨mx, hmx⟩ := seriesMax_isSome h
  refine ⟨seleccionar_periodos_eq fechas h fi ff, ?_, ?_, ?_, ?_, ?_, ?_, ?_⟩
  · rw [seleccionar_periodos_eq fechas h fi ff, seleccionar_periodos_eq fechas h ff fi,
      min_comm (toPeriod ff), max_comm (toPeriod ff)]
  · intro d d₂
    rw [seleccionar_periodos_eq fechas h fi ff,
      seleccionar_periodos_eq fechas h ⟨fi.year, fi.month, d⟩ ⟨ff.year, ff.month, d₂⟩]
    rfl
  · intro p fb hp
    simp [nearest_atras, hp]
  · intro p fb ⟨q, hq, hqp⟩
    have hqf : q ∈ fechas.filter fun r => decide (r ≤ p) := by
      simp [List.mem_filter, hq, hqp]
    have hfne : fechas.filter (fun r => decide (r ≤ p)) ≠ [] :=
      List.ne_nil_of_mem hqf
    obtain ⟨m, hm⟩ := seriesMax_isSome hfne
    have hmmem : m ∈ fechas.filter fun r => decide (r ≤ p) := seriesMax_mem hm
    have hmf : m ∈ fechas ∧ m ≤ p := by
      simpa [List.mem_filter] using hmmem
    by_cases hpin : p ∈ fechas
    · refine ⟨?_, ?_, ?_⟩ <;> simp only [nearest_atras, if_pos hpin]
      · exact hpin
      · exact le_refl p
      · intro r _ hrp
        exact hrp
    · have hval : nearest_atras fechas p fb = m := by
        simp only [nearest_atras, if_neg hpin, hm]
      refine ⟨?_, ?_, ?_⟩ <;> rw [hval]
      · exact hmf.1
      · exact hmf.2
      · intro r hr hrp
        exact le_seriesMax hm r (by simp [List.mem_filter, hr, hrp])
  · intro p fb hnone
    have hfil : fechas.filter (fun r => decide (r ≤ p)) = [] := by
      rw [List.filter_eq_nil_iff]
      intro a ha
      simpa using hnone a ha
    have hpin : p ∉ fechas := fun hp => hnone p hp (le_refl p)
    simp only [nearest_atras, if_neg hpin, hfil]
    rfl
  · exact ⟨mn, mx, hmn, hmx, seriesMin_mem hmn, seriesMax_mem hmx,
      fun q hq => ⟨seriesMin_le hmn q hq, le_seriesMax hmx q hq⟩⟩
  · intro pi pf hsel
    rw [seleccionar_periodos_eq fechas h fi ff] at hsel
    simp only [Option.some.injEq, Prod.mk.injEq] at hsel
    rw [← hsel.2]
    exact min_le_right _ _

theorem claim_C3_period_selection_witness :
    seleccionar_periodos [24241, 24243] ⟨2020, 1, 15⟩ ⟨2020, 4, 2⟩ =
      some (24241, 24243) := by
  have h := (claim_C3_period_selection [24241, 24243] (by simp)
    ⟨2020, 1, 15⟩ ⟨2020, 4, 2⟩).1
  rw [h]
  decide

/-- `serie.loc[serie['fecha'] == p, col].iloc[0]` from `src/formulas.py`
lines 77-81: the value of the first row whose period equals `p`; `none`
models the `IndexError` pandas raises when no row matches. -/
def lookupFecha (df : List (ℤ × ℚ)) (p : ℤ) : Option ℚ :=
  (df.find? fun r => r.1 == p).map Prod.snd

/-- Running maximum of the index column, continuing from accumulator `m`. -/
def cummaxFrom (m : ℚ) : List (ℤ × ℚ) → List (ℤ × ℚ)
  | [] => []
  | (p, v) :: rest => (p, max m v) :: cummaxFrom (max m v) rest

/-- `serie['indice'].cummax()` from `src/formulas.py` line 76: the
series whose value at each row is the running maximum of the index values
up to and including that row. -/
def cummax : List (ℤ × ℚ) → List (ℤ × ℚ)
  | [] => []
  | (p, v) :: rest => (p, v) :: cummaxFrom v rest

/-- `coeficiente_ripte` from `src/formulas.py` lines 70-82. -/
def coeficiente_ripte (df : List (ℤ × ℚ)) (pi? pf? : Option ℤ) (usar_nd : Bool) :
    Option ℚ :=
  if df = [] ∨ pi? = none ∨ pf? = none then some 1
  else
    pi?.bind fun p =>
      pf?.bind fun q =>
        (lookupFecha (if usar_nd then cummax df else df) p).bind fun vi =>
          (lookupFecha (if usar_nd then cummax df else df) q).bind fun vf =>
            some (if 0 < vi then vf / vi else 1)

/-- C4: `coeficiente_ripte` returns exactly `1` on an empty table or an
undefined period; when both lookups resolve it returns the end/start ratio,
or `1` when the start value is not positive; none of these degenerate
inputs raises. -/
theorem claim_C4_ripte_coefficient (df : List (ℤ × ℚ)) (pi? pf? : Option ℤ) (nd : Bool) :
    (df = [] ∨ pi? = none ∨ pf? = none → coeficiente_ripte df pi? pf? nd = some 1) ∧
    (∀ p q vi vf, pi? = some p → pf? = some q →
      lookupFecha (if nd then cummax df else df) p = some vi →
      lookupFecha (if nd then cummax df else df) q = some vf →
      coeficiente_ripte df pi? pf? nd = some (if 0 < vi then vf / vi else 1)) := by
  constructor
  · intro hdeg
    simp [coeficiente_ripte, hdeg]
  · intro p q vi vf hp hq hvi hvf
    subst hp
    subst hq
    have hdf : df ≠ [] := by
      rintro rfl
      cases nd <;> simp [lookupFecha, cummax] at hvi
    rw [coeficiente_ripte, if_neg (by simp [hdf])]
    rw [Option.some_bind, Option.some_bind, hvi, Option.some_bind, hvf, Option.some_bind]

theorem claim_C4_ripte_coefficient_witness :
    coeficiente_ripte [] (some 1) (some 2) true = some 1 ∧
      coeficiente_ripte [(1, 2), (3, 6)] (some 1) (some 3) false =
        some (if (0 : ℚ) < 2 then 6 / 2 else 1) := by
  refine ⟨(claim_C4_ripte_coefficient [] (some 1) (some 2) true).1 (Or.inl rfl),
    (claim_C4_ripte_coefficient [(1, 2), (3, 6)] (some 1) (some 3) false).2
      1 3 2 6 rfl rfl ?_ ?_⟩ <;> rfl

/-- The rows of the RIPTE CSV after column normalisation: the period parses
via `pd.to_datetime` (which raises, rather than yields `NaN`, on bad input)
and the index value is `pd.to_numeric(..., errors='coerce')`, so `none`
models a `NaN` that `dropna` will remove. -/
def parse_rows (rows : List (ℤ × Option ℚ)) : List (ℤ × ℚ) :=
  rows.filterMap fun r => r.2.map fun v => (r.1, v)

/-- The `sort_values('fecha')` key order on rows. -/
def byFecha (a b : ℤ × ℚ) : Prop := a.1 ≤ b.1

instance : DecidableRel byFecha := fun a b => inferInstanceAs (Decidable (a.1 ≤ b.1))

instance : IsTotal (ℤ × ℚ) byFecha := ⟨fun a b => le_total a.1 b.1⟩

instance : IsTrans (ℤ × ℚ) byFecha := ⟨fun _ _ _ hab hbc => le_trans hab hbc⟩

/-- `drop_duplicates(subset=['fecha'], keep='last')` from
`src/formulas.py` line 45: keep a row only when no later row repeats its
period. -/
def dedupLast : List (ℤ × ℚ) → List (ℤ × ℚ)
  | [] => []
  | r :: rest =>
    if rest.any fun s => s.1 == r.1 then dedupLast rest else r :: dedupLast rest

/-- The validation pipeline of `cargar_ripte`, `src/formulas.py` line 45:
`df.dropna().sort_values('fecha').drop_duplicates(subset=['fecha'], keep='last')`.
`sort_values` uses pandas' default quicksort, which is not stable, so the
relative order of rows sharing a period — and hence the row that
`keep='last'` retains for a duplicated period — is unspecified; this model
fixes one admissible tie order (an insertion sort), and only properties
independent of that tie order are asserted of the result. -/
def cargar_ripte (rows : List (ℤ × Option ℚ)) : List (ℤ × ℚ) :=
  dedupLast (List.insertionSort byFecha (parse_rows rows))

lemma dedupLast_sublist : ∀ l : List (ℤ × ℚ), (dedupLast l).Sublist l := by
  intro l
  induction l with
  | nil => simp [dedupLast]
  | cons r rest ih =>
    by_cases hany : (rest.any fun s => s.1 == r.1) = true
    · rw [dedupLast, if_pos hany]
      exact ih.trans (List.sublist_cons_self r rest)
    · rw [dedupLast, if_neg hany]
      exact ih.cons₂ r

lemma dedupLast_pairwise_lt {l : List (ℤ × ℚ)} (hs : l.Pairwise byFecha) :
    (dedupLast l).Pairwise fun a b => a.1 < b.1 := by
  induction l with
  | nil => simp [dedupLast]
  | cons r rest ih =>
    rw [List.pairwise_cons] at hs
    by_cases hany : (rest.any fun s => s.1 == r.1) = true
    · rw [dedupLast, if_pos hany]
      exact ih hs.2
    · rw [dedupLast, if_neg hany]
      have hkey : ∀ s ∈ rest, ¬ s.1 = r.1 := by
        intro s hsmem hsr
        exact hany (List.any_eq_true.mpr ⟨s, hsmem, by simpa using hsr⟩)
      rw [List.pairwise_cons]
      refine ⟨?_, ih hs.2⟩
      intro x hx
      have hxrest : x ∈ rest := (dedupLast_sublist rest).subset hx
      have hle : r.1 ≤ x.1 := hs.1 x hxrest
      have hne : ¬ x.1 = r.1 := hkey x hxrest
      omega

lemma cargar_ripte_pairwise_lt (rows : List (ℤ × Option ℚ)) :
    (cargar_ripte rows).Pairwise fun a b => a.1 < b.1 :=
  dedupLast_pairwise_lt (List.sorted_insertionSort byFecha (parse_rows rows))

lemma mem_parse_rows {rows : List (ℤ × Option ℚ)} {f : ℤ} {v : ℚ} :
    (f, v) ∈ parse_rows rows ↔ (f, some v) ∈ rows := by
  constructor
  · intro h
    obtain ⟨⟨a, b?⟩, hmem, hmap⟩ := List.mem_filterMap.mp h
    cases b? with
    | none => simp at hmap
    | some b =>
      have hab : a = f ∧ b = v := by simpa using hmap
      rw [← hab.1, ← hab.2]
      exact hmem
  · intro h
    exact List.mem_filterMap.mpr ⟨(f, some v), h, rfl⟩

lemma mem_keys_dedupLast {l : List (ℤ × ℚ)} {f : ℤ}
    (h : f ∈ l.map Prod.fst) : f ∈ (dedupLast l).map Prod.fst := by
  induction l with
  | nil => simp at h
  | cons r rest ih =>
    by_cases hany : (rest.any fun s => s.1 == r.1) = true
    · rw [dedupLast, if_pos hany]
      rcases List.mem_map.mp h with ⟨x, hx, hxf⟩
      rcases List.mem_cons.mp hx with hxr | hxrest
      · obtain ⟨s, hs, hs1⟩ : ∃ s ∈ rest, s.1 = r.1 := by simpa using hany
        subst hxr
        exact ih (List.mem_map.mpr ⟨s, hs, by rw [← hxf, hs1]⟩)
      · exact ih (List.mem_map.mpr ⟨x, hxrest, hxf⟩)
    · rw [dedupLast, if_neg hany]
      rcases List.mem_map.mp h with ⟨x, hx, hxf⟩
      rcases List.mem_cons.mp hx with hxr | hxrest
      · subst hxr
        simp only [List.map_cons, List.mem_cons]
        exact Or.inl hxf.symm
      · have hin : f ∈ (dedupLast rest).map Prod.fst :=
          ih (List.mem_map.mpr ⟨x, hxrest, hxf⟩)
        simp only [List.map_cons, List.mem_cons]
        exact Or.inr hin

/-- C5 counterexample: `cargar_ripte` performs no positivity validation —
a parseable negative index value (here `-1`) is retained in the loaded
series, refuting the conjunct that every retained index value is strictly
positive. -/
theorem claim_C5_counterexample :
    ((0 : ℤ), (-1 : ℚ)) ∈ cargar_ripte [((0 : ℤ), some (-1 : ℚ))] ∧
      ¬ (0 < (-1 : ℚ)) := by
  constructor
  · decide
  · norm_num

/-- C5 (amended): after `cargar_ripte`, periods are strictly ascending
(hence unique), every retained row comes from a parseable input row for
the same period, and every parseable period is represented. Positivity of
the retained values is NOT enforced (only `NaN`/unparseable numeric cells
are dropped); and for a duplicated period the surviving value is merely one
of its parsed values: pandas' default unstable quicksort leaves the tie
order of equal periods, and hence the row kept by `keep='last'`,
unspecified. -/
theorem claim_C5_amended_load_invariant (rows : List (ℤ × Option ℚ)) :
    (cargar_ripte rows).Pairwise (fun a b => a.1 < b.1) ∧
    (∀ r ∈ cargar_ripte rows, (r.1, some r.2) ∈ rows) ∧
    (∀ f : ℤ, ∀ v : ℚ, (f, some v) ∈ rows → f ∈ (cargar_ripte rows).map Prod.fst) := by
  refine ⟨cargar_ripte_pairwise_lt rows, ?_, ?_⟩
  · intro r hr
    have hparse : r ∈ parse_rows rows :=
      (List.perm_insertionSort byFecha (parse_rows rows)).subset
        ((dedupLast_sublist _).subset hr)
    obtain ⟨f, v⟩ := r
    exact mem_parse_rows.mp hparse
  · intro f v hrow
    have hparse : (f, v) ∈ parse_rows rows := mem_parse_rows.mpr hrow
    have hsort : (f, v) ∈ List.insertionSort byFecha (parse_rows rows) :=
      ((List.perm_insertionSort byFecha (parse_rows rows)).mem_iff).mpr hparse
    exact mem_keys_dedupLast (List.mem_map.mpr ⟨(f, v), hsort, rfl⟩)

theorem claim_C5_amended_load_invariant_witness :
    (cargar_ripte [(3, some 2), (3, some 5), (4, none)]).Pairwise
        (fun a b => a.1 < b.1) ∧
      (3 : ℤ) ∈ (cargar_ripte [(3, some 2), (3, some 5), (4, none)]).map Prod.fst :=
  ⟨(claim_C5_amended_load_invariant [(3, some 2), (3, some 5), (4, none)]).1,
    (claim_C5_amended_load_invariant [(3, some 2), (3, some 5), (4, none)]).2.2
      3 5 (by decide)⟩

lemma lookupFecha_mem_keys {l : List (ℤ × ℚ)} {p : ℤ} {v : ℚ}
    (h : lookupFecha l p = some v) : p ∈ l.map Prod.fst := by
  obtain ⟨r, hfind, -⟩ : ∃ r, (l.find? fun s => s.1 == p) = some r ∧ r.2 = v := by
    unfold lookupFecha at h
    cases hf : l.find? fun s => s.1 == p with
    | none => rw [hf] at h; simp at h
    | some r => rw [hf] at h; exact ⟨r, rfl, by simpa using h⟩
  have hrp : r.1 = p := by simpa using List.find?_some hfind
  exact List.mem_map.mpr ⟨r, List.mem_of_find?_eq_some hfind, hrp⟩

lemma lookupFecha_isSome_of_mem_keys {l : List (ℤ × ℚ)} {p : ℤ}
    (h : p ∈ l.map Prod.fst) : ∃ v, lookupFecha l p = some v := by
  obtain ⟨r, hr, hrp⟩ := List.mem_map.mp h
  have : ∃ s, (l.find? fun s => s.1 == p) = some s := by
    have hsome : (l.find? fun s => s.1 == p).isSome := by
      rw [List.find?_isSome]
      exact ⟨r, hr, by simpa using hrp⟩
    cases hf : l.find? fun s => s.1 == p with
    | none => rw [hf] at hsome; simp at hsome
    | some s => exact ⟨s, rfl⟩
  obtain ⟨s, hs⟩ := this
  exact ⟨s.2, by simp [lookupFecha, hs]⟩

lemma keys_cummaxFrom (m : ℚ) (l : List (ℤ × ℚ)) :
    (cummaxFrom m l).map Prod.fst = l.map Prod.fst := by
  induction l generalizing m with
  | nil => rfl
  | cons r rest ih =>
    obtain ⟨f, v⟩ := r
    simp [cummaxFrom, ih]

lemma keys_cummax (l : List (ℤ × ℚ)) : (cummax l).map Prod.fst = l.map Prod.fst := by
  cases l with
  | nil => rfl
  | cons r rest =>
    obtain ⟨f, v⟩ := r
    simp [cummax, keys_cummaxFrom]

lemma cummaxFrom_lookup_ge {m : ℚ} {l : List (ℤ × ℚ)} {p : ℤ} {v : ℚ}
    (h : lookupFecha (cummaxFrom m l) p = some v) : m ≤ v := by
  induction l generalizing m with
  | nil => simp [cummaxFrom, lookupFecha] at h
  | cons r rest ih =>
    obtain ⟨f, w⟩ := r
    rw [cummaxFrom] at h
    by_cases hf : f = p
    · rw [lookupFecha, List.find?_cons_of_pos _ (by simpa using hf)] at h
      simp at h
      rw [← h]
      exact le_max_left m w
    · rw [lookupFecha, List.find?_cons_of_neg _ (by simpa using hf)] at h
      exact le_trans (le_max_left m w) (ih h)

lemma cummaxFrom_lookup_mono {m : ℚ} {l : List (ℤ × ℚ)}
    (hl : l.Pairwise fun a b => a.1 < b.1) {p q : ℤ} (hpq : p ≤ q) {vi vf : ℚ}
    (hvi : lookupFecha (cummaxFrom m l) p = some vi)
    (hvf : lookupFecha (cummaxFrom m l) q = some vf) : vi ≤ vf := by
  induction l generalizing m with
  | nil => simp [cummaxFrom, lookupFecha] at hvi
  | cons r rest ih =>
    obtain ⟨f, w⟩ := r
    rw [List.pairwise_cons] at hl
    rw [cummaxFrom] at hvi hvf
    by_cases hfp : f = p
    · rw [lookupFecha, List.find?_cons_of_pos _ (by simpa using hfp)] at hvi
      simp at hvi
      by_cases hfq : f = q
      · rw [lookupFecha, List.find?_cons_of_pos _ (by simpa using hfq)] at hvf
        simp at hvf
        rw [← hvi, ← hvf]
      · rw [lookupFecha, List.find?_cons_of_neg _ (by simpa using hfq)] at hvf
        rw [← hvi]
        exact cummaxFrom_lookup_ge hvf
    · rw [lookupFecha, List.find?_cons_of_neg _ (by simpa using hfp)] at hvi
      have hprest : p ∈ rest.map Prod.fst := by
        have := lookupFecha_mem_keys (l := cummaxFrom (max m w) rest) (p := p) hvi
        rwa [keys_cummaxFrom] at this
      by_cases hfq : f = q
      · obtain ⟨s, hs, hsp⟩ := List.mem_map.mp hprest
        have hlt : f < s.1 := hl.1 s hs
        omega
      · rw [lookupFecha, List.find?_cons_of_neg _ (by simpa using hfq)] at hvf
        exact ih hl.2 hvi hvf

lemma cummax_lookup_mono {l : List (ℤ × ℚ)}
    (hl : l.Pairwise fun a b => a.1 < b.1) {p q : ℤ} (hpq : p ≤ q) {vi vf : ℚ}
    (hvi : lookupFecha (cummax l) p = some vi)
    (hvf : lookupFecha (cummax l) q = some vf) : vi ≤ vf := by
  cases l with
  | nil => simp [cummax, lookupFecha] at hvi
  | cons r rest =>
    obtain ⟨f, w⟩ := r
    have hrw : cummax ((f, w) :: rest) = cummaxFrom w ((f, w) :: rest) := by
      simp [cummax, cummaxFrom, max_self]
    rw [hrw] at hvi hvf
    exact cummaxFrom_lookup_mono hl hpq hvi hvf

/-- C10: for a loaded (hence period-sorted) non-empty table and two table
periods `p ≤ q`, the non-decreasing-view coefficient is defined and `≥ 1`:
the running maximum makes the end value at least the start value, and the
non-positive-start guard yields `1`. -/
theorem claim_C10_nondecreasing_coefficient (rows : List (ℤ × Option ℚ)) (p q : ℤ)
    (hp : p ∈ (cargar_ripte rows).map Prod.fst)
    (hq : q ∈ (cargar_ripte rows).map Prod.fst) (hpq : p ≤ q) :
    ∃ c, coeficiente_ripte (cargar_ripte rows) (some p) (some q) true = some c ∧
      1 ≤ c := by
  have hdf : cargar_ripte rows ≠ [] := by
    intro hnil
    rw [hnil] at hp
    simp at hp
  obtain ⟨vi, hvi⟩ := lookupFecha_isSome_of_mem_keys
    (l := cummax (cargar_ripte rows)) (p := p) (by rwa [keys_cummax])
  obtain ⟨vf, hvf⟩ := lookupFecha_isSome_of_mem_keys
    (l := cummax (cargar_ripte rows)) (p := q) (by rwa [keys_cummax])
  have hmono : vi ≤ vf :=
    cummax_lookup_mono (cargar_ripte_pairwise_lt rows) hpq hvi hvf
  refine ⟨if 0 < vi then vf / vi else 1, ?_, ?_⟩
  · rw [coeficiente_ripte, if_neg (by simp [hdf])]
    rw [Option.some_bind, Option.some_bind, if_pos rfl, hvi, Option.some_bind,
      hvf, Option.some_bind]
  · by_cases hvi0 : 0 < vi
    · rw [if_pos hvi0]
      exact (one_le_div hvi0).mpr hmono
    · rw [if_neg hvi0]

theorem claim_C10_nondecreasing_coefficient_witness :
    ∃ c, coeficiente_ripte (cargar_ripte [(1, some 2), (2, some 1)])
        (some 1) (some 2) true = some c ∧ 1 ≤ c :=
  claim_C10_nondecreasing_coefficient [(1, some 2), (2, some 1)] 1 2
    (by decide) (by decide) (by decide)
